import Mathlib

/-!
# Shallow embedding of the cadmium_v2 DEVS simulation core

This file embeds the two executors of the cadmium_v2 simulation kernel
(`src/include/cadmium/core/simulation/simulator.hpp` and
`src/include/cadmium/core/simulation/coordinator.hpp`) in Lean 4 and proves
properties of the embedded operations.

Modelling choices:
* simulation time (C++ `double`) is embedded as `ℚ`; the extended time used
  for `timeNext` (which may be `std::numeric_limits<double>::infinity()`) is
  `WithTop ℚ`, written `ETime`, with `⊤` playing the role of `+∞`;
* a port is a message queue, embedded as `List Msg` with `Msg := ℕ`;
  `addMessage` appends, `propagate` appends all of the source's messages to
  the target (`Port::propagate` in the excluded modelling layer is additive);
* an atomic model (`AtomicInterface`) is a record holding the current state
  together with its user-supplied operations (`internalTransition`,
  `externalTransition`, `confluentTransition`, `output`, `timeAdvance`);
  the state type is a parameter `S`;
* the executor tree is an inductive type: `Executor.sim` wraps a `Simulator`
  (atomic executor) and `Executor.coord` wraps the coordinator's own data
  (its coupled model's ports and couplings, plus the time bookkeeping
  inherited from `AbstractSimulator`) and the list of child executors, in
  construction order;
* loggers only produce I/O and never influence the simulation state, so the
  logger fields and the logging statements are not embedded;
* each operation additionally returns a trace of `Ev` events recording, in
  execution order, which model hooks were invoked and which couplings were
  propagated; ordering claims are stated on these traces.
-/

/-- A message.  The C++ code is polymorphic in the message type; the claims
only need one concrete instance. -/
abbrev Msg := ℕ

/-- Simulation time (C++ `double`). -/
abbrev Time := ℚ

/-- Extended time: `timeNext` may be `+∞` (a passive model), embedded as `⊤`. -/
abbrev ETime := WithTop ℚ

/-- An atomic DEVS model (`AtomicInterface`): current state, input and output
ports (each port a message queue), and the five user-supplied operations.
`outFn` gives, per output port, the messages that one call to `output()`
appends to that port. -/
structure Atomic (S : Type) where
  state : S
  inPorts : List (List Msg)
  outPorts : List (List Msg)
  deltaInt : S → S
  deltaExt : S → Time → List (List Msg) → S
  deltaCon : S → Time → List (List Msg) → S
  outFn : S → List (List Msg)
  ta : S → ETime

/-- `AtomicInterface::inEmpty()`: every input port is empty. -/
def Atomic.inEmpty {S : Type} (a : Atomic S) : Bool :=
  a.inPorts.all List.isEmpty

/-- One call to the model's `output()`: append `outFn state` pointwise to the
output ports. -/
def Atomic.applyOutput {S : Type} (a : Atomic S) : Atomic S :=
  { a with outPorts := List.zipWith (fun p q => p ++ q) a.outPorts (a.outFn a.state) }

/-- `Component::clearPorts()`: empty every port. -/
def Atomic.clearPorts {S : Type} (a : Atomic S) : Atomic S :=
  { a with inPorts := a.inPorts.map (fun _ => []),
           outPorts := a.outPorts.map (fun _ => []) }

/-- Which model transition hook a `Simulator::transition` call invoked,
with the elapsed-time argument where the hook takes one. -/
inductive Hook where
  | internal : Hook
  | external (e : Time) : Hook
  | confluent (e : Time) : Hook
deriving DecidableEq, Repr

/-- The atomic executor (`Simulator`): `AbstractSimulator` bookkeeping fields
plus the wrapped atomic model.  Loggers are omitted (I/O only). -/
structure Simulator (S : Type) where
  modelId : Int
  timeLast : Time
  timeNext : ETime
  model : Atomic S

/-- `Simulator::Simulator(model, time)`: the `AbstractSimulator(time)` base
constructor sets `timeLast = time`, then the body sets
`timeNext = timeLast + model->timeAdvance()`. -/
def Simulator.mkSim {S : Type} (a : Atomic S) (time : Time) : Simulator S :=
  { modelId := 0, timeLast := time, timeNext := (time : ETime) + a.ta a.state, model := a }

/-- `Simulator::transition(time)`, instrumented: returns the new simulator
state together with the list of model transition hooks invoked (in order).
Mirrors simulator.hpp lines 121-155: early return when the inputs are empty
and `time < timeNext`; otherwise exactly one of `internalTransition`,
`externalTransition(e)`, `confluentTransition(e)` with `e = time - timeLast`;
afterwards `timeLast = time` and `timeNext = time + timeAdvance()` on the
post-transition state. -/
def Simulator.transition {S : Type} (s : Simulator S) (time : Time) :
    Simulator S × List Hook :=
  let inEmpty := s.model.inEmpty
  if inEmpty ∧ (time : ETime) < s.timeNext then
    (s, [])
  else
    let stepped :=
      if inEmpty then
        (s.model.deltaInt s.model.state, [Hook.internal])
      else
        let e := time - s.timeLast
        if (time : ETime) < s.timeNext then
          (s.model.deltaExt s.model.state e s.model.inPorts, [Hook.external e])
        else
          (s.model.deltaCon s.model.state e s.model.inPorts, [Hook.confluent e])
    let m := { s.model with state := stepped.1 }
    ({ s with model := m, timeLast := time,
              timeNext := (time : ETime) + m.ta stepped.1 }, stepped.2)

/-- `Simulator::collection(time)`: call the model's `output()` iff
`time >= timeNext`.  The returned flag records whether `output()` ran. -/
def Simulator.collection {S : Type} (s : Simulator S) (time : Time) :
    Simulator S × Bool :=
  if s.timeNext ≤ (time : ETime) then
    ({ s with model := s.model.applyOutput }, true)
  else
    (s, false)

/-- `Simulator::start(time)`: sets `timeLast = time` (log emission omitted). -/
def Simulator.start {S : Type} (s : Simulator S) (time : Time) : Simulator S :=
  { s with timeLast := time }

/-- `Simulator::stop(time)`: sets `timeLast = time` (log emission omitted). -/
def Simulator.stop {S : Type} (s : Simulator S) (time : Time) : Simulator S :=
  { s with timeLast := time }

/-- `Simulator::clear()`: clears all ports of the model. -/
def Simulator.clear {S : Type} (s : Simulator S) : Simulator S :=
  { s with model := s.model.clearPorts }

/-- An event in an execution trace: a model hook or output invocation, or a
propagation of the `k`-th coupling of the respective kind at the current
level; `sub i e` is event `e` produced by the `i`-th child executor. -/
inductive Ev where
  | outp : Ev
  | hook (h : Hook) : Ev
  | eicP (k : ℕ) : Ev
  | icP (k : ℕ) : Ev
  | eocP (k : ℕ) : Ev
  | sub (i : ℕ) (e : Ev) : Ev
deriving DecidableEq, Repr

/-- Wrap the traces of the children, in construction order: the events of the
`i`-th child are tagged `sub i` and concatenated in order. -/
def subWrap (trs : List (List Ev)) : List Ev :=
  (trs.enum.map (fun p => p.2.map (Ev.sub p.1))).flatten

/-- An EIC coupling: own input port `src` → input port `tgtPort` of child
`tgtChild`. -/
structure EICLink where
  src : ℕ
  tgtChild : ℕ
  tgtPort : ℕ
deriving DecidableEq, Repr

/-- An IC coupling: output port `srcPort` of child `srcChild` → input port
`tgtPort` of child `tgtChild`. -/
structure ICLink where
  srcChild : ℕ
  srcPort : ℕ
  tgtChild : ℕ
  tgtPort : ℕ
deriving DecidableEq, Repr

/-- An EOC coupling: output port `srcPort` of child `srcChild` → own output
port `tgt`. -/
structure EOCLink where
  srcChild : ℕ
  srcPort : ℕ
  tgt : ℕ
deriving DecidableEq, Repr

/-- The coordinator's own data: `AbstractSimulator` bookkeeping plus its
coupled model's own ports and the three coupling relations. -/
structure CoupledSt where
  modelId : Int
  timeLast : Time
  timeNext : ETime
  inPorts : List (List Msg)
  outPorts : List (List Msg)
  eic : List EICLink
  ic : List ICLink
  eoc : List EOCLink

/-- An executor tree: a `Simulator` leaf for an atomic model, or a
`Coordinator` with its own data and its child executors in construction
order. -/
inductive Executor (S : Type) : Type where
  | sim (s : Simulator S) : Executor S
  | coord (c : CoupledSt) (children : List (Executor S)) : Executor S

/-- `getTimeNext()`. -/
def Executor.timeNextOf {S : Type} : Executor S → ETime
  | .sim s => s.timeNext
  | .coord c _ => c.timeNext

/-- `getTimeLast()`. -/
def Executor.timeLastOf {S : Type} : Executor S → Time
  | .sim s => s.timeLast
  | .coord c _ => c.timeLast

/-- The executor's model id. -/
def Executor.modelIdOf {S : Type} : Executor S → Int
  | .sim s => s.modelId
  | .coord c _ => c.modelId

/-- The input ports of the executor's component, as seen by the parent's
coupling propagation (the atomic model's ports for a `Simulator`, the coupled
model's own ports for a `Coordinator`). -/
def Executor.inPortsOf {S : Type} : Executor S → List (List Msg)
  | .sim s => s.model.inPorts
  | .coord c _ => c.inPorts

/-- The output ports of the executor's component. -/
def Executor.outPortsOf {S : Type} : Executor S → List (List Msg)
  | .sim s => s.model.outPorts
  | .coord c _ => c.outPorts

/-- Update the `i`-th element of a list in place. -/
def updNth {α : Type} : List α → ℕ → (α → α) → List α
  | [], _, _ => []
  | a :: as, 0, f => f a :: as
  | a :: as, n + 1, f => a :: updNth as n f

/-- Read port `i` of a port list (empty if out of range). -/
def portGet (ps : List (List Msg)) (i : ℕ) : List Msg :=
  ps.getD i []

/-- `Port::propagate` into input port `p` of this executor's component:
append `msgs` to that port's queue. -/
def Executor.addToInPort {S : Type} (ex : Executor S) (p : ℕ) (msgs : List Msg) :
    Executor S :=
  match ex with
  | .sim s =>
      .sim { s with model := { s.model with inPorts := updNth s.model.inPorts p (fun q => q ++ msgs) } }
  | .coord c cs => .coord { c with inPorts := updNth c.inPorts p (fun q => q ++ msgs) } cs

/-- Messages currently queued on output port `p` of child `i` (empty if out of
range). -/
def childOut {S : Type} (cs : List (Executor S)) (i p : ℕ) : List Msg :=
  match cs.get? i with
  | some ch => portGet ch.outPortsOf p
  | none => []

/-- Propagate the EIC couplings in list order: each copies the messages of the
coordinator's own input port onto the target child's input port.  (EIC
propagation never modifies the coordinator's own input ports, so the source
view `inP` is fixed.) -/
def applyEICs {S : Type} (inP : List (List Msg)) : List EICLink → List (Executor S) → List (Executor S)
  | [], cs => cs
  | l :: ls, cs =>
      applyEICs inP ls (updNth cs l.tgtChild (fun ch => ch.addToInPort l.tgtPort (portGet inP l.src)))

/-- Propagate the IC couplings in list order: each copies the messages of the
source child's output port onto the target child's input port, reading the
state left by the previous propagations. -/
def applyICs {S : Type} : List ICLink → List (Executor S) → List (Executor S)
  | [], cs => cs
  | l :: ls, cs =>
      applyICs ls (updNth cs l.tgtChild (fun ch => ch.addToInPort l.tgtPort (childOut cs l.srcChild l.srcPort)))

/-- Propagate the EOC couplings in list order: each appends the messages of
the source child's output port to the coordinator's own output port.  (EOC
propagation never modifies any child, so the children view `cs` is fixed.) -/
def applyEOCs {S : Type} (cs : List (Executor S)) : List EOCLink → List (List Msg) → List (List Msg)
  | [], outP => outP
  | l :: ls, outP =>
      applyEOCs cs ls (updNth outP l.tgt (fun q => q ++ childOut cs l.srcChild l.srcPort))

mutual
/-- `collection(time)`, instrumented with the trace of output invocations and
coupling propagations.  `Simulator::collection` calls `output()` iff
`time >= timeNext`; `Coordinator::collection` (coordinator.hpp lines 106-112),
iff `time >= timeNext`, recurses into every child in construction order, then
propagates every IC coupling, then every EOC coupling. -/
def Executor.collectE {S : Type} : Executor S → Time → Executor S × List Ev
  | .sim s, t =>
      let r := s.collection t
      (.sim r.1, if r.2 then [Ev.outp] else [])
  | .coord c cs, t =>
      if c.timeNext ≤ (t : ETime) then
        let rs := Executor.collectL cs t
        let cs1 := rs.map Prod.fst
        let cs2 := applyICs c.ic cs1
        let outP := applyEOCs cs2 c.eoc c.outPorts
        (.coord { c with outPorts := outP } cs2,
          subWrap (rs.map Prod.snd)
            ++ (List.range c.ic.length).map Ev.icP
            ++ (List.range c.eoc.length).map Ev.eocP)
      else (.coord c cs, [])

def Executor.collectL {S : Type} : List (Executor S) → Time → List (Executor S × List Ev)
  | [], _ => []
  | ch :: rest, t => Executor.collectE ch t :: Executor.collectL rest t
end

mutual
/-- The number of nodes of an executor tree (a termination measure that is
independent of port contents). -/
def nodesE {S : Type} : Executor S → ℕ
  | .sim _ => 1
  | .coord _ cs => nodesL cs + 1

def nodesL {S : Type} : List (Executor S) → ℕ
  | [] => 0
  | ch :: rest => nodesE ch + nodesL rest + 1
end

theorem nodesE_addToInPort {S : Type} (ex : Executor S) (p : ℕ) (msgs : List Msg) :
    nodesE (ex.addToInPort p msgs) = nodesE ex := by
  cases ex <;> rfl

theorem nodesL_updNth {S : Type} (cs : List (Executor S)) (i : ℕ) (f : Executor S → Executor S)
    (hf : ∀ a, nodesE (f a) = nodesE a) : nodesL (updNth cs i f) = nodesL cs := by
  induction cs generalizing i with
  | nil => rfl
  | cons ch rest ih =>
      cases i with
      | zero => simp [updNth, nodesL, hf]
      | succ n => simp [updNth, nodesL, ih]

theorem nodesL_applyEICs {S : Type} (inP : List (List Msg)) (ls : List EICLink)
    (cs : List (Executor S)) : nodesL (applyEICs inP ls cs) = nodesL cs := by
  induction ls generalizing cs with
  | nil => rfl
  | cons l ls ih =>
      rw [applyEICs, ih, nodesL_updNth]
      intro a
      exact nodesE_addToInPort a _ _

mutual
/-- `transition(time)`, instrumented with the trace of invoked hooks and EIC
propagations.  `Coordinator::transition` (coordinator.hpp lines 118-126)
propagates every EIC coupling first, sets `timeLast = time`, resets `timeNext`
to `+∞` and recurses into every child in construction order, folding
`timeNext = min(timeNext, child.timeNext)` as it goes (the fold is written
here as a `foldl` over the post-transition children, which performs the same
left-to-right minimum accumulation as the C++ loop). -/
def Executor.transitionE {S : Type} : Executor S → Time → Executor S × List Ev
  | .sim s, t =>
      let r := s.transition t
      (.sim r.1, r.2.map Ev.hook)
  | .coord c cs, t =>
      let cs0 := applyEICs c.inPorts c.eic cs
      let rs := Executor.transitionL cs0 t
      let cs1 := rs.map Prod.fst
      let tn := cs1.foldl (fun acc ch => min acc ch.timeNextOf) ⊤
      (.coord { c with timeLast := t, timeNext := tn } cs1,
        (List.range c.eic.length).map Ev.eicP ++ subWrap (rs.map Prod.snd))
termination_by ex _ => nodesE ex
decreasing_by
  simp [nodesE, nodesL, nodesL_applyEICs]

def Executor.transitionL {S : Type} : List (Executor S) → Time → List (Executor S × List Ev)
  | [], _ => []
  | ch :: rest, t => Executor.transitionE ch t :: Executor.transitionL rest t
termination_by cs _ => nodesL cs
decreasing_by
  all_goals simp [nodesE, nodesL]
  all_goals omega
end

mutual
/-- `clear()`: recurse into every child, then clear this level's own ports
(for a `Simulator`, clear the atomic model's ports). -/
def Executor.clearE {S : Type} : Executor S → Executor S
  | .sim s => .sim s.clear
  | .coord c cs =>
      .coord { c with inPorts := c.inPorts.map (fun _ => []),
                      outPorts := c.outPorts.map (fun _ => []) }
        (Executor.clearL cs)

def Executor.clearL {S : Type} : List (Executor S) → List (Executor S)
  | [] => []
  | ch :: rest => Executor.clearE ch :: Executor.clearL rest
end

mutual
/-- `start(time)`: set `timeLast = time` and recurse into every child. -/
def Executor.startE {S : Type} : Executor S → Time → Executor S
  | .sim s, t => .sim (s.start t)
  | .coord c cs, t => .coord { c with timeLast := t } (Executor.startL cs t)

def Executor.startL {S : Type} : List (Executor S) → Time → List (Executor S)
  | [], _ => []
  | ch :: rest, t => Executor.startE ch t :: Executor.startL rest t
end

mutual
/-- `stop(time)`: set `timeLast = time` and recurse into every child. -/
def Executor.stopE {S : Type} : Executor S → Time → Executor S
  | .sim s, t => .sim (s.stop t)
  | .coord c cs, t => .coord { c with timeLast := t } (Executor.stopL cs t)

def Executor.stopL {S : Type} : List (Executor S) → Time → List (Executor S)
  | [], _ => []
  | ch :: rest, t => Executor.stopE ch t :: Executor.stopL rest t
end

mutual
/-- `setModelId(next)`: a `Simulator` takes `next` and returns `next + 1`; a
`Coordinator` takes `next` for itself, then threads the counter through its
children left-to-right, returning the next free id. -/
def Executor.setModelId {S : Type} : Executor S → Int → Executor S × Int
  | .sim s, n => (.sim { s with modelId := n }, n + 1)
  | .coord c cs, n =>
      let r := Executor.setModelIdL cs (n + 1)
      (.coord { c with modelId := n } r.1, r.2)

def Executor.setModelIdL {S : Type} : List (Executor S) → Int → List (Executor S) × Int
  | [], n => ([], n)
  | ch :: rest, n =>
      let r := Executor.setModelId ch n
      let r2 := Executor.setModelIdL rest r.2
      (r.1 :: r2.1, r2.2)
end

mutual
/-- The model ids of the executor tree in depth-first pre-order: a coordinator
lists its own id first, then its children's left-to-right. -/
def Executor.idsE {S : Type} : Executor S → List Int
  | .sim s => [s.modelId]
  | .coord c cs => c.modelId :: Executor.idsL cs

def Executor.idsL {S : Type} : List (Executor S) → List Int
  | [] => []
  | ch :: rest => Executor.idsE ch ++ Executor.idsL rest
end

/-- The number of executors in the tree. -/
def Executor.sizeE {S : Type} (ex : Executor S) : ℕ :=
  ex.idsE.length

/-- `Coordinator::inject(e, port, value)` (coordinator.hpp lines 142-152):
with `time = timeLast + e`, fail iff `time > timeNext` (the C++ code throws
before touching any state); otherwise append `value` to the coordinator's
own input port `port`, set `timeLast = time`, run a full `transition(time)`
and then `clear()`.  Returns the new state and a success flag; on failure the
state is returned unmodified.  `inject` exists only on `Coordinator`; on a
`Simulator` leaf it is a failing no-op here. -/
def Executor.inject {S : Type} : Executor S → Time → ℕ → Msg → Executor S × Bool
  | .coord c cs, e, p, v =>
      let time := c.timeLast + e
      if c.timeNext < (time : ETime) then (.coord c cs, false)
      else
        let c1 := { c with inPorts := updNth c.inPorts p (fun q => q ++ [v]), timeLast := time }
        ((Executor.transitionE (.coord c1 cs) time).1.clearE, true)
  | .sim s, _, _, _ => (.sim s, false)

/-- A DEVS model tree: the input to executor-tree construction. -/
inductive DevsModel (S : Type) : Type where
  | atomic (a : Atomic S) : DevsModel S
  | coupled (inPorts outPorts : List (List Msg)) (eic : List EICLink)
      (ic : List ICLink) (eoc : List EOCLink) (children : List (DevsModel S)) : DevsModel S

mutual
/-- Executor-tree construction at initial time `time`: a `Simulator` per
atomic model, a `Coordinator` per coupled model (coordinator.hpp lines
45-65), recursing into children in order and folding
`timeNext = min(timeNext, child.timeNext)`.  Modelled from the spec: the
`AbstractSimulator(time)` base constructor lives in `abs_simulator.hpp`,
which is not part of the given sources; per the spec, `timeLast = time` and
the coordinator's own `timeNext` is the minimum over its children's
`timeNext` (so the pre-fold initial value is `+∞`), while the `Simulator`
constructor body overwrites `timeNext = timeLast + timeAdvance()`. -/
def buildExecutor {S : Type} : DevsModel S → Time → Executor S
  | .atomic a, t => .sim (Simulator.mkSim a t)
  | .coupled inP outP eic ic eoc children, t =>
      let cs := buildL children t
      .coord { modelId := 0, timeLast := t,
               timeNext := cs.foldl (fun acc ch => min acc ch.timeNextOf) ⊤,
               inPorts := inP, outPorts := outP, eic := eic, ic := ic, eoc := eoc } cs

def buildL {S : Type} : List (DevsModel S) → Time → List (Executor S)
  | [], _ => []
  | m :: rest, t => buildExecutor m t :: buildL rest t
end

/-- The children of an executor (empty for a `Simulator` leaf). -/
def Executor.childrenOf {S : Type} : Executor S → List (Executor S)
  | .sim _ => []
  | .coord _ cs => cs

/-- Event classifiers used to state ordering properties of traces. -/
def Ev.isSubEv : Ev → Bool
  | .sub _ _ => true
  | _ => false

def Ev.isICEv : Ev → Bool
  | .icP _ => true
  | _ => false

def Ev.isEOCEv : Ev → Bool
  | .eocP _ => true
  | _ => false

def Ev.isEICEv : Ev → Bool
  | .eicP _ => true
  | _ => false

theorem subWrap_mem_isSub (trs : List (List Ev)) (e : Ev) (he : e ∈ subWrap trs) :
    e.isSubEv = true := by
  rw [subWrap] at he
  rcases List.mem_flatten.mp he with ⟨l, hl, hel⟩
  rcases List.mem_map.mp hl with ⟨p, _, rfl⟩
  rcases List.mem_map.mp hel with ⟨e0, _, rfl⟩
  rfl

/-- If no element of `xs` satisfies `Q` and no element of `ys` satisfies `P`,
then in `xs ++ ys` every position holding a `P`-element comes strictly before
every position holding a `Q`-element. -/
theorem append_idx_lt {α : Type} (xs ys : List α) (P Q : α → Bool)
    (hx : ∀ a ∈ xs, Q a = false) (hy : ∀ a ∈ ys, P a = false)
    (i j : ℕ) (a b : α) (hi : (xs ++ ys).get? i = some a) (hP : P a = true)
    (hj : (xs ++ ys).get? j = some b) (hQ : Q b = true) : i < j := by
  have hilt : i < xs.length := by
    by_contra hge
    push_neg at hge
    rw [List.get?_append_right hge] at hi
    have : a ∈ ys := List.get?_mem hi
    rw [hy a this] at hP
    exact Bool.false_ne_true hP
  have hjge : xs.length ≤ j := by
    by_contra hlt
    push_neg at hlt
    rw [List.get?_append hlt] at hj
    have : b ∈ xs := List.get?_mem hj
    rw [hx b this] at hQ
    exact Bool.false_ne_true hQ
  exact lt_of_lt_of_le hilt hjge

theorem foldl_min_le_init {α : Type} [LinearOrder α] (l : List α) (i : α) :
    l.foldl min i ≤ i := by
  induction l generalizing i with
  | nil => exact le_refl i
  | cons x xs ih => exact le_trans (ih (min i x)) (min_le_left i x)

theorem foldl_min_le_mem {α : Type} [LinearOrder α] (l : List α) (i : α) (x : α)
    (hx : x ∈ l) : l.foldl min i ≤ x := by
  induction l generalizing i with
  | nil => cases hx
  | cons y ys ih =>
      rcases List.mem_cons.mp hx with h | h
      · subst h
        exact le_trans (foldl_min_le_init ys (min i x)) (min_le_right i x)
      · exact ih (min i y) h

theorem foldl_min_eq_init_or_mem {α : Type} [LinearOrder α] (l : List α) (i : α) :
    l.foldl min i = i ∨ l.foldl min i ∈ l := by
  induction l generalizing i with
  | nil => exact Or.inl rfl
  | cons x xs ih =>
      rcases ih (min i x) with h | h
      · rcases min_cases i x with ⟨hmin, _⟩ | ⟨hmin, _⟩
        · exact Or.inl (by rw [List.foldl_cons, h, hmin])
        · exact Or.inr (by rw [List.foldl_cons, h, hmin]; exact List.mem_cons_self x xs)
      · exact Or.inr (List.mem_cons_of_mem x h)

theorem foldl_min_timeNext_eq {S : Type} (cs : List (Executor S)) (i : ETime) :
    cs.foldl (fun acc ch => min acc ch.timeNextOf) i =
      (cs.map Executor.timeNextOf).foldl min i := by
  induction cs generalizing i with
  | nil => rfl
  | cons ch rest ih => simpa using ih (min i ch.timeNextOf)

/-! ## Concrete fixtures used by witnesses and counterexamples -/

/-- A passive-free atomic model over the trivial state: constant
`timeAdvance() = 1`, one (empty) input port, one output port, `output()`
emitting message `7`. -/
def atomU : Atomic Unit :=
  { state := (), inPorts := [[]], outPorts := [[]],
    deltaInt := id, deltaExt := fun st _ _ => st, deltaCon := fun st _ _ => st,
    outFn := fun _ => [[7]], ta := fun _ => (1 : ℚ) }

/-- The same atomic model with message `3` already queued on its input port. -/
def atomUIn : Atomic Unit :=
  { atomU with inPorts := [[3]] }

/-! ## C1, C2, C10: the atomic executor's transition dispatch -/

/-- **C1**: for every call to `Simulator::transition(time)`: if the model's
input ports are empty and `time < timeNext`, nothing happens; if inputs are
empty and `time ≥ timeNext`, `internalTransition()` is invoked; if inputs are
present and `time < timeNext`, `externalTransition(time - timeLast)` is
invoked; if inputs are present and `time ≥ timeNext`,
`confluentTransition(time - timeLast)` is invoked — and in every case at most
one hook runs, never both the internal and the external transition in the
same step. -/
theorem simulator_transition_dispatch {S : Type} (s : Simulator S) (t : Time) :
    (s.model.inEmpty = true → (t : ETime) < s.timeNext → s.transition t = (s, [])) ∧
    (s.model.inEmpty = true → s.timeNext ≤ (t : ETime) →
      (s.transition t).2 = [Hook.internal]) ∧
    (s.model.inEmpty = false → (t : ETime) < s.timeNext →
      (s.transition t).2 = [Hook.external (t - s.timeLast)]) ∧
    (s.model.inEmpty = false → s.timeNext ≤ (t : ETime) →
      (s.transition t).2 = [Hook.confluent (t - s.timeLast)]) ∧
    (s.transition t).2.length ≤ 1 := by
  by_cases h1 : s.model.inEmpty
  · by_cases h2 : (t : ETime) < s.timeNext
    · simp [Simulator.transition, h1, h2]
    · simp [Simulator.transition, h1, h2, le_of_not_lt h2, not_le_of_lt]
  · by_cases h2 : (t : ETime) < s.timeNext
    · simp [Simulator.transition, h1, h2, not_le_of_lt h2]
    · simp [Simulator.transition, h1, h2, le_of_not_lt h2]

/-- Witness for `simulator_transition_dispatch`: the internal-transition row
at a concrete input. -/
theorem simulator_transition_dispatch_witness :
    ((Simulator.mkSim atomU 0).transition 1).2 = [Hook.internal] :=
  (simulator_transition_dispatch (Simulator.mkSim atomU 0) 1).2.1
    (by norm_num [Simulator.mkSim, atomU, Atomic.inEmpty])
    (by norm_num [Simulator.mkSim, atomU])

/-- **C2**: whenever `Simulator::transition(time)` actually fires a transition
(the returned hook trace is nonempty), afterwards `timeLast = time` and
`timeNext = time + timeAdvance()`, where `timeAdvance()` is re-queried on the
post-transition model state. -/
theorem simulator_transition_times {S : Type} (s : Simulator S) (t : Time)
    (h : (s.transition t).2 ≠ []) :
    (s.transition t).1.timeLast = t ∧
    (s.transition t).1.timeNext =
      (t : ETime) + (s.transition t).1.model.ta (s.transition t).1.model.state := by
  by_cases h1 : s.model.inEmpty
  · by_cases h2 : (t : ETime) < s.timeNext
    · simp [Simulator.transition, h1, h2] at h
    · simp [Simulator.transition, h1, h2]
  · by_cases h2 : (t : ETime) < s.timeNext
    · simp [Simulator.transition, h1, h2]
    · simp [Simulator.transition, h1, h2]

/-- Witness for `simulator_transition_times` at a concrete input. -/
theorem simulator_transition_times_witness :
    ((Simulator.mkSim atomU 0).transition 1).1.timeLast = 1 ∧
    ((Simulator.mkSim atomU 0).transition 1).1.timeNext =
      ((1 : ℚ) : ETime) + ((Simulator.mkSim atomU 0).transition 1).1.model.ta
        ((Simulator.mkSim atomU 0).transition 1).1.model.state :=
  simulator_transition_times (Simulator.mkSim atomU 0) 1
    (by norm_num [Simulator.mkSim, atomU, Simulator.transition, Atomic.inEmpty])

/-! ## C3, C4, C6: the coordinator's per-phase protocol -/

theorem timeNextOf_coord {S : Type} (c : CoupledSt) (cs : List (Executor S)) :
    (Executor.coord c cs).timeNextOf = c.timeNext := rfl

theorem childrenOf_coord {S : Type} (c : CoupledSt) (cs : List (Executor S)) :
    (Executor.coord c cs).childrenOf = cs := rfl

/-- Unfolding equation for `Coordinator::collection` when `time ≥ timeNext`. -/
theorem collectE_coord_pos {S : Type} (c : CoupledSt) (cs : List (Executor S)) (t : Time)
    (hc : c.timeNext ≤ (t : ETime)) :
    Executor.collectE (.coord c cs) t =
      (Executor.coord
        { c with outPorts := applyEOCs (applyICs c.ic ((Executor.collectL cs t).map Prod.fst)) c.eoc c.outPorts }
        (applyICs c.ic ((Executor.collectL cs t).map Prod.fst)),
       subWrap ((Executor.collectL cs t).map Prod.snd)
         ++ ((List.range c.ic.length).map Ev.icP
         ++ (List.range c.eoc.length).map Ev.eocP)) := by
  rw [Executor.collectE, if_pos hc]
  simp only [List.append_assoc]

/-- Unfolding equation for `Coordinator::collection` when `time < timeNext`:
it is a no-op. -/
theorem collectE_coord_neg {S : Type} (c : CoupledSt) (cs : List (Executor S)) (t : Time)
    (hc : ¬ c.timeNext ≤ (t : ETime)) :
    Executor.collectE (.coord c cs) t = (.coord c cs, []) := by
  rw [Executor.collectE, if_neg hc]

/-- Unfolding equation for `Coordinator::transition`. -/
theorem transitionE_coord_eq {S : Type} (c : CoupledSt) (cs : List (Executor S)) (t : Time) :
    Executor.transitionE (.coord c cs) t =
      (Executor.coord
        { c with timeLast := t, timeNext := ((Executor.transitionL (applyEICs c.inPorts c.eic cs) t).map Prod.fst).foldl (fun acc ch => min acc ch.timeNextOf) ⊤ }
        ((Executor.transitionL (applyEICs c.inPorts c.eic cs) t).map Prod.fst),
       (List.range c.eic.length).map Ev.eicP
         ++ subWrap ((Executor.transitionL (applyEICs c.inPorts c.eic cs) t).map Prod.snd)) := by
  rw [Executor.transitionE]

/-- **C3**: for every executor, `collection(time)` is a no-op when
`time < timeNext`; when `time ≥ timeNext`, a `Coordinator` first recurses
`collection` into every child in construction order, then propagates every IC
coupling, then every EOC coupling — in the trace, every child event precedes
every IC propagation and every IC propagation strictly precedes every EOC
propagation — and a `Simulator` invokes the model's `output()` exactly then. -/
theorem collection_protocol {S : Type} (ex : Executor S) (s : Simulator S)
    (c : CoupledSt) (cs : List (Executor S)) (t : Time) :
    ((t : ETime) < ex.timeNextOf → ex.collectE t = (ex, [])) ∧
    (s.timeNext ≤ (t : ETime) →
      Executor.collectE (S := S) (.sim s) t =
        (.sim { s with model := s.model.applyOutput }, [Ev.outp])) ∧
    (c.timeNext ≤ (t : ETime) →
      Executor.collectE (.coord c cs) t =
        (Executor.coord
          { c with outPorts := applyEOCs (applyICs c.ic ((Executor.collectL cs t).map Prod.fst)) c.eoc c.outPorts }
          (applyICs c.ic ((Executor.collectL cs t).map Prod.fst)),
         subWrap ((Executor.collectL cs t).map Prod.snd)
           ++ ((List.range c.ic.length).map Ev.icP
           ++ (List.range c.eoc.length).map Ev.eocP))) ∧
    (∀ i j a b, (Executor.collectE (.coord c cs) t).2.get? i = some a → a.isSubEv = true →
      (Executor.collectE (.coord c cs) t).2.get? j = some b → b.isICEv = true → i < j) ∧
    (∀ i j a b, (Executor.collectE (.coord c cs) t).2.get? i = some a → a.isICEv = true →
      (Executor.collectE (.coord c cs) t).2.get? j = some b → b.isEOCEv = true → i < j) := by
  refine ⟨?_, ?_, ?_, ?_, ?_⟩
  · intro h
    cases ex with
    | sim s1 =>
        simp only [Executor.timeNextOf] at h
        simp [Executor.collectE, Simulator.collection, not_le_of_lt h]
    | coord c1 cs1 =>
        simp only [Executor.timeNextOf] at h
        exact collectE_coord_neg c1 cs1 t (not_le_of_lt h)
  · intro h
    simp [Executor.collectE, Simulator.collection, h]
  · exact collectE_coord_pos c cs t
  · intro i j a b hi ha hj hb
    by_cases hc : c.timeNext ≤ (t : ETime)
    · rw [collectE_coord_pos c cs t hc] at hi hj
      refine append_idx_lt _ _ Ev.isSubEv Ev.isICEv ?_ ?_ i j a b hi ha hj hb
      · intro x hx
        have hs := subWrap_mem_isSub _ _ hx
        cases x <;> simp_all [Ev.isSubEv, Ev.isICEv]
      · intro x hx
        rcases List.mem_append.mp hx with h | h <;>
          rcases List.mem_map.mp h with ⟨k, _, rfl⟩ <;> rfl
    · rw [collectE_coord_neg c cs t hc] at hi
      simp at hi
  · intro i j a b hi ha hj hb
    by_cases hc : c.timeNext ≤ (t : ETime)
    · rw [collectE_coord_pos c cs t hc, ← List.append_assoc] at hi hj
      refine append_idx_lt _ _ Ev.isICEv Ev.isEOCEv ?_ ?_ i j a b hi ha hj hb
      · intro x hx
        rcases List.mem_append.mp hx with h | h
        · have hs := subWrap_mem_isSub _ _ h
          cases x <;> simp_all [Ev.isSubEv, Ev.isEOCEv]
        · rcases List.mem_map.mp h with ⟨k, _, rfl⟩; rfl
      · intro x hx
        rcases List.mem_map.mp hx with ⟨k, _, rfl⟩; rfl
    · rw [collectE_coord_neg c cs t hc] at hi
      simp at hi

/-- **C4**: for every call to `Coordinator::transition(time)`: every EIC
coupling is propagated before any child's `transition(time)` runs (in the
trace every EIC propagation strictly precedes every child event), the
children then transition in construction order (the result and trace are the
in-order recursion over the EIC-propagated children), and `timeLast` is set
to `time` unconditionally. -/
theorem coordinator_transition_protocol {S : Type} (c : CoupledSt)
    (cs : List (Executor S)) (t : Time) :
    (Executor.transitionE (.coord c cs) t =
      (Executor.coord
        { c with timeLast := t, timeNext := ((Executor.transitionL (applyEICs c.inPorts c.eic cs) t).map Prod.fst).foldl (fun acc ch => min acc ch.timeNextOf) ⊤ }
        ((Executor.transitionL (applyEICs c.inPorts c.eic cs) t).map Prod.fst),
       (List.range c.eic.length).map Ev.eicP
         ++ subWrap ((Executor.transitionL (applyEICs c.inPorts c.eic cs) t).map Prod.snd))) ∧
    (Executor.transitionE (.coord c cs) t).1.timeLastOf = t ∧
    (∀ i j a b, (Executor.transitionE (.coord c cs) t).2.get? i = some a → a.isEICEv = true →
      (Executor.transitionE (.coord c cs) t).2.get? j = some b → b.isSubEv = true → i < j) := by
  refine ⟨transitionE_coord_eq c cs t, ?_, ?_⟩
  · rw [transitionE_coord_eq c cs t]
    rfl
  · intro i j a b hi ha hj hb
    rw [transitionE_coord_eq c cs t] at hi hj
    refine append_idx_lt _ _ Ev.isEICEv Ev.isSubEv ?_ ?_ i j a b hi ha hj hb
    · intro x hx
      rcases List.mem_map.mp hx with ⟨k, _, rfl⟩; rfl
    · intro x hx
      have hs := subWrap_mem_isSub _ _ hx
      cases x <;> simp_all [Ev.isSubEv, Ev.isEICEv]

/-- **C6**: after every call to `Coordinator::transition`, the coordinator's
`timeNext` equals the minimum of its children's `timeNext` values: it is a
lower bound of them, it is `+∞` when there are no children, and it is
attained by some child otherwise. -/
theorem coordinator_timeNext_min {S : Type} (c : CoupledSt) (cs : List (Executor S)) (t : Time) :
    (∀ ch ∈ (Executor.transitionE (.coord c cs) t).1.childrenOf,
      (Executor.transitionE (.coord c cs) t).1.timeNextOf ≤ ch.timeNextOf) ∧
    ((Executor.transitionE (.coord c cs) t).1.childrenOf = [] →
      (Executor.transitionE (.coord c cs) t).1.timeNextOf = ⊤) ∧
    ((Executor.transitionE (.coord c cs) t).1.childrenOf ≠ [] →
      ∃ ch ∈ (Executor.transitionE (.coord c cs) t).1.childrenOf,
        (Executor.transitionE (.coord c cs) t).1.timeNextOf = ch.timeNextOf) := by
  rw [transitionE_coord_eq c cs t]
  simp only [childrenOf_coord, timeNextOf_coord]
  set cs1 := (Executor.transitionL (applyEICs c.inPorts c.eic cs) t).map Prod.fst with hcs1
  rw [foldl_min_timeNext_eq]
  refine ⟨?_, ?_, ?_⟩
  · intro ch hch
    exact foldl_min_le_mem _ _ _ (List.mem_map_of_mem Executor.timeNextOf hch)
  · intro h
    rw [h]
    rfl
  · intro h
    rcases foldl_min_eq_init_or_mem (cs1.map Executor.timeNextOf) ⊤ with heq | hmem
    · rcases List.exists_mem_of_ne_nil cs1 h with ⟨ch, hch⟩
      refine ⟨ch, hch, le_antisymm ?_ ?_⟩
      · exact foldl_min_le_mem _ _ _ (List.mem_map_of_mem Executor.timeNextOf hch)
      · rw [heq]; exact le_top
    · rcases List.mem_map.mp hmem with ⟨ch, hch, hv⟩
      exact ⟨ch, hch, hv.symm⟩

/-- A simulator in a corrupted schedule state `timeLast = 5 > timeNext = 1`
(reachable, e.g., via `start(5)` on a simulator built at time `0`), with an
input message pending. -/
def simBad : Simulator Unit :=
  { modelId := 0, timeLast := 5, timeNext := ((1 : ℚ) : ETime), model := atomUIn }

/-- **C10, counterexample**: at `timeLast = 5`, `timeNext = 1`, a call
`transition(2)` has non-empty inputs and `time < timeLast`, yet it invokes
`confluentTransition(-3)`, not `externalTransition(-3)` — the claim's
external-transition consequence fails for a call with `time < timeLast` when
`timeNext ≤ time`. -/
theorem simulator_no_validation_counterexample :
    simBad.model.inEmpty = false ∧ (2 : ℚ) < simBad.timeLast ∧
    (simBad.transition 2).2 = [Hook.confluent (2 - 5)] ∧
    (simBad.transition 2).2 ≠ [Hook.external (2 - 5)] := by
  refine ⟨by norm_num [simBad, atomUIn, atomU, Atomic.inEmpty], by norm_num [simBad], ?_, ?_⟩ <;>
    norm_num [simBad, atomUIn, atomU, Simulator.transition, Atomic.inEmpty] <;> simp

/-- **C10, amended**: `Simulator::transition(time)` performs no validation of
its documented precondition `timeLast ≤ time ≤ timeNext` and never raises:
for every call with non-empty input ports and `time < timeLast`, *provided
the standing schedule invariant `timeLast ≤ timeNext` holds*,
`externalTransition` is still invoked with the negative elapsed time
`time - timeLast`, and `timeLast`/`timeNext` are still updated to `time` and
`time + timeAdvance()`. -/
theorem simulator_no_validation {S : Type} (s : Simulator S) (t : Time)
    (hne : s.model.inEmpty = false) (hlt : t < s.timeLast)
    (hinv : (s.timeLast : ETime) ≤ s.timeNext) :
    (s.transition t).2 = [Hook.external (t - s.timeLast)] ∧
    t - s.timeLast < 0 ∧
    (s.transition t).1.timeLast = t ∧
    (s.transition t).1.timeNext =
      (t : ETime) + (s.transition t).1.model.ta (s.transition t).1.model.state := by
  have h2 : (t : ETime) < s.timeNext :=
    lt_of_lt_of_le (by exact_mod_cast hlt) hinv
  refine ⟨?_, by linarith, ?_, ?_⟩ <;> simp [Simulator.transition, hne, h2]

/-- Witness for `simulator_no_validation` at a concrete input: a simulator at
`timeLast = 5`, `timeNext = 6`, called at time `2`. -/
theorem simulator_no_validation_witness :
    (({ modelId := 0, timeLast := 5, timeNext := ((6 : ℚ) : ETime),
        model := atomUIn } : Simulator Unit).transition 2).2 =
      [Hook.external (2 - 5)] :=
  (simulator_no_validation
    { modelId := 0, timeLast := 5, timeNext := ((6 : ℚ) : ETime), model := atomUIn } 2
    (by norm_num [atomUIn, atomU, Atomic.inEmpty]) (by norm_num)
    (by show ((5 : ℚ) : ETime) ≤ ((6 : ℚ) : ETime)
        exact_mod_cast (by norm_num : (5 : ℚ) ≤ 6))).1

/-- A simulator leaf over `atomU` whose internal event is due at time `0`. -/
def simDue : Simulator Unit :=
  { modelId := 0, timeLast := 0, timeNext := ((0 : ℚ) : ETime), model := atomU }

/-- Witness for `collection_protocol`: the simulator case at a concrete due
time. -/
theorem collection_protocol_witness :
    Executor.collectE (S := Unit) (.sim simDue) 0 =
      (.sim { simDue with model := simDue.model.applyOutput }, [Ev.outp]) :=
  (collection_protocol (.sim simDue) simDue
      { modelId := 0, timeLast := 0, timeNext := ((0 : ℚ) : ETime), inPorts := [],
        outPorts := [], eic := [], ic := [], eoc := [] } [] 0).2.1
    (le_refl _)

/-- A childless coordinator state with `timeLast = 0`, `timeNext = 1` and one
(empty) own input port. -/
def coordWin : CoupledSt :=
  { modelId := 0, timeLast := 0, timeNext := ((1 : ℚ) : ETime), inPorts := [[]],
    outPorts := [], eic := [], ic := [], eoc := [] }

/-- Witness for `coordinator_transition_protocol`: `timeLast` is set
unconditionally at a concrete input. -/
theorem coordinator_transition_protocol_witness :
    (Executor.transitionE (S := Unit) (.coord coordWin []) 7).1.timeLastOf = 7 :=
  (coordinator_transition_protocol coordWin [] 7).2.1

/-- Witness for `coordinator_timeNext_min`: with no children, `timeNext`
becomes `+∞` after a transition. -/
theorem coordinator_timeNext_min_witness :
    (Executor.transitionE (S := Unit) (.coord coordWin []) 7).1.timeNextOf = ⊤ :=
  (coordinator_timeNext_min coordWin [] 7).2.1
    (by rw [transitionE_coord_eq]
        simp [childrenOf_coord, applyEICs, coordWin, Executor.transitionL])

/-! ## C5: inject -/

/-- **C5**: for every coordinator state, `inject(elapsed, port, value)` with
`time = timeLast + elapsed` fails if and only if `time > timeNext`; on
failure the simulator state is left unmodified (the C++ code throws before
any mutation); on success the value is enqueued on the port, `timeLast` is
set to `time`, and a full `transition(time)` followed by `clear()` is
executed.  In particular, with `timeLast = 0` and `timeNext = 1`, injecting
with `elapsed = 1/2` succeeds with resulting time `1/2` and injecting with
`elapsed = 2` fails. -/
theorem coordinator_inject_spec {S : Type} (c : CoupledSt) (cs : List (Executor S))
    (e : Time) (p : ℕ) (v : Msg) :
    ((Executor.inject (.coord c cs) e p v).2 = false ↔
      c.timeNext < ((c.timeLast + e : ℚ) : ETime)) ∧
    (c.timeNext < ((c.timeLast + e : ℚ) : ETime) →
      (Executor.inject (.coord c cs) e p v).1 = .coord c cs) ∧
    (((c.timeLast + e : ℚ) : ETime) ≤ c.timeNext →
      (Executor.inject (.coord c cs) e p v).1 =
        Executor.clearE (Executor.transitionE
          (Executor.coord
            { c with inPorts := updNth c.inPorts p (fun q => q ++ [v]), timeLast := c.timeLast + e }
            cs)
          (c.timeLast + e)).1 ∧
      (Executor.inject (.coord c cs) e p v).2 = true) ∧
    ((Executor.inject (S := Unit) (.coord coordWin []) (1/2) 0 5).2 = true ∧
      (Executor.inject (S := Unit) (.coord coordWin []) (1/2) 0 5).1.timeLastOf = 1/2 ∧
      (Executor.inject (S := Unit) (.coord coordWin []) 2 0 5).2 = false) := by
  refine ⟨?_, ?_, ?_, ?_, ?_, ?_⟩
  · simp only [Executor.inject]
    push_cast
    by_cases h : c.timeNext < (c.timeLast : ETime) + (e : ETime) <;> simp [h]
  · intro h
    push_cast at h
    simp [Executor.inject, h]
  · intro h
    push_cast at h
    simp [Executor.inject, not_lt.mpr h]
  · norm_num [Executor.inject, coordWin, Executor.transitionE, Executor.transitionL,
      applyEICs, Executor.clearE, Executor.clearL, updNth]
  · norm_num [Executor.inject, coordWin, Executor.transitionE, Executor.transitionL,
      applyEICs, Executor.clearE, Executor.clearL, updNth, Executor.timeLastOf]
  · norm_num [Executor.inject, coordWin]

/-- Witness for `coordinator_inject_spec`: the failure branch leaves the
state unmodified at a concrete input. -/
theorem coordinator_inject_spec_witness :
    (Executor.inject (S := Unit) (.coord coordWin []) 2 0 5).1 = .coord coordWin [] :=
  (coordinator_inject_spec coordWin [] 2 0 5).2.1
    (by norm_num [coordWin])

/-! ## C9: setModelId -/

mutual
theorem setIdE_spec {S : Type} (ex : Executor S) (n : Int) :
    Executor.idsE (Executor.setModelId ex n).1 =
      (List.range (Executor.idsE ex).length).map (fun (i : ℕ) => n + (i : Int)) ∧
    (Executor.setModelId ex n).2 = n + ((Executor.idsE ex).length : Int) := by
  cases ex with
  | sim s =>
      simp [Executor.setModelId, Executor.idsE,
        show List.range 1 = [0] from rfl]
  | coord c cs =>
      have hL := setIdL_spec cs (n + 1)
      simp only [Executor.setModelId, Executor.idsE, List.length_cons]
      constructor
      · rw [hL.1, List.range_succ_eq_map, List.map_cons, List.map_map]
        refine List.cons_eq_cons.mpr ⟨by simp, ?_⟩
        refine List.map_congr_left ?_
        intro i _
        simp only [Function.comp]
        push_cast
        ring
      · rw [hL.2]
        push_cast
        ring

theorem setIdL_spec {S : Type} (cs : List (Executor S)) (n : Int) :
    Executor.idsL (Executor.setModelIdL cs n).1 =
      (List.range (Executor.idsL cs).length).map (fun (i : ℕ) => n + (i : Int)) ∧
    (Executor.setModelIdL cs n).2 = n + ((Executor.idsL cs).length : Int) := by
  cases cs with
  | nil =>
      simp [Executor.setModelIdL, Executor.idsL]
  | cons ch rest =>
      have h1 := setIdE_spec ch n
      have h2 := setIdL_spec rest (Executor.setModelId ch n).2
      simp only [Executor.setModelIdL, Executor.idsL, List.length_append]
      constructor
      · rw [h1.1, h2.1, h1.2, List.range_add, List.map_append, List.map_map]
        congr 1
        refine List.map_congr_left ?_
        intro i _
        simp only [Function.comp]
        push_cast
        ring
      · rw [h2.2, h1.2]
        push_cast
        ring
end

/-- **C9**: for every executor tree and starting id `n`, `setModelId(n)`
assigns the executors, in depth-first pre-order (an executor's own id first,
then its children left-to-right), exactly the contiguous ids
`n, n+1, …, n+k-1` for a tree of `k` executors; the assigned ids are all
distinct, and the call returns the next unused id `n + k`. -/
theorem setModelId_preorder {S : Type} (ex : Executor S) (n : Int) :
    Executor.idsE (Executor.setModelId ex n).1 =
      (List.range ex.sizeE).map (fun (i : ℕ) => n + (i : Int)) ∧
    (Executor.idsE (Executor.setModelId ex n).1).Nodup ∧
    (Executor.setModelId ex n).2 = n + (ex.sizeE : Int) := by
  have h := setIdE_spec ex n
  refine ⟨h.1, ?_, h.2⟩
  rw [h.1]
  refine List.Nodup.map ?_ (List.nodup_range _)
  intro a b hab
  have hab2 : (a : Int) = (b : Int) := by
    have hq := hab
    simp only [add_right_inj] at hq
    exact hq
  exact_mod_cast hab2

/-! ## C8: collection is not idempotent -/

/-- A coordinator due at time `0` with one atomic child (also due) and one
EOC coupling from the child's output port to the coordinator's output port. -/
def coordDup : Executor Unit :=
  .coord { modelId := 0, timeLast := 0, timeNext := ((0 : ℚ) : ETime),
           inPorts := [], outPorts := [[]], eic := [], ic := [],
           eoc := [{ srcChild := 0, srcPort := 0, tgt := 0 }] }
    [.sim simDue]

/-- **C8, counterexample**: a second `collection(0)` on the same coordinator
state (no intervening transition) appends the propagated messages again: the
EOC target port holds `[7]` after one collection and `[7, 7, 7]` after a
second one — messages are duplicated. -/
theorem collection_idempotence_counterexample :
    Executor.outPortsOf (Executor.collectE coordDup 0).1 = [[7]] ∧
    Executor.outPortsOf (Executor.collectE (Executor.collectE coordDup 0).1 0).1 =
      [[7, 7, 7]] := by
  constructor <;>
    norm_num [coordDup, simDue, atomU, Executor.collectE, Executor.collectL,
      Simulator.collection, Atomic.applyOutput, applyICs, applyEOCs, childOut,
      portGet, updNth, Executor.outPortsOf]

theorem timeNextOf_collectE {S : Type} (ex : Executor S) (t : Time) :
    (Executor.collectE ex t).1.timeNextOf = ex.timeNextOf := by
  cases ex with
  | sim s =>
      by_cases h : s.timeNext ≤ (t : ETime) <;>
        simp [Executor.collectE, Simulator.collection, h, Executor.timeNextOf]
  | coord c cs =>
      by_cases h : c.timeNext ≤ (t : ETime)
      · rw [collectE_coord_pos c cs t h]
        rfl
      · rw [collectE_coord_neg c cs t h]

theorem collectE_snd_addToInPort {S : Type} (ex : Executor S) (p : ℕ) (m : List Msg)
    (t : Time) :
    (Executor.collectE (ex.addToInPort p m) t).2 = (Executor.collectE ex t).2 := by
  cases ex with
  | sim s =>
      by_cases h : s.timeNext ≤ (t : ETime) <;>
        simp [Executor.collectE, Simulator.collection, Executor.addToInPort, h]
  | coord c cs =>
      by_cases h : c.timeNext ≤ (t : ETime)
      · rw [show (Executor.coord c cs).addToInPort p m =
            Executor.coord { c with inPorts := updNth c.inPorts p (fun q => q ++ m) } cs from rfl,
          collectE_coord_pos { c with inPorts := updNth c.inPorts p (fun q => q ++ m) } cs t h,
          collectE_coord_pos c cs t h]
      · rw [show (Executor.coord c cs).addToInPort p m =
            Executor.coord { c with inPorts := updNth c.inPorts p (fun q => q ++ m) } cs from rfl,
          collectE_coord_neg { c with inPorts := updNth c.inPorts p (fun q => q ++ m) } cs t h,
          collectE_coord_neg c cs t h]

theorem collectL_snd_updNth {S : Type} (cs : List (Executor S)) (i : ℕ)
    (f : Executor S → Executor S) (t : Time)
    (hf : ∀ ch, (Executor.collectE (f ch) t).2 = (Executor.collectE ch t).2) :
    (Executor.collectL (updNth cs i f) t).map Prod.snd =
      (Executor.collectL cs t).map Prod.snd := by
  induction cs generalizing i with
  | nil => rfl
  | cons ch rest ih =>
      cases i with
      | zero => simp [updNth, Executor.collectL, hf]
      | succ k => simp [updNth, Executor.collectL, ih]

theorem collectL_snd_applyICs {S : Type} (ls : List ICLink) (cs : List (Executor S))
    (t : Time) :
    (Executor.collectL (applyICs ls cs) t).map Prod.snd =
      (Executor.collectL cs t).map Prod.snd := by
  induction ls generalizing cs with
  | nil => rfl
  | cons l ls ih =>
      rw [applyICs, ih, collectL_snd_updNth]
      intro ch
      exact collectE_snd_addToInPort ch _ _ t

mutual
theorem collect_twice_E {S : Type} (ex : Executor S) (t : Time) :
    (Executor.collectE (Executor.collectE ex t).1 t).2 = (Executor.collectE ex t).2 := by
  cases ex with
  | sim s =>
      by_cases h : s.timeNext ≤ (t : ETime) <;>
        simp [Executor.collectE, Simulator.collection, Atomic.applyOutput, h]
  | coord c cs =>
      by_cases h : c.timeNext ≤ (t : ETime)
      · have hrec := collect_twice_L cs t
        rw [collectE_coord_pos c cs t h,
          collectE_coord_pos
            { c with outPorts := applyEOCs (applyICs c.ic ((Executor.collectL cs t).map Prod.fst)) c.eoc c.outPorts }
            (applyICs c.ic ((Executor.collectL cs t).map Prod.fst)) t h]
        rw [collectL_snd_applyICs, hrec]
      · rw [collectE_coord_neg c cs t h, collectE_coord_neg c cs t h]

theorem collect_twice_L {S : Type} (cs : List (Executor S)) (t : Time) :
    (Executor.collectL ((Executor.collectL cs t).map Prod.fst) t).map Prod.snd =
      (Executor.collectL cs t).map Prod.snd := by
  cases cs with
  | nil => rfl
  | cons ch rest =>
      have h1 := collect_twice_E ch t
      have h2 := collect_twice_L rest t
      simp only [Executor.collectL, List.map_cons]
      rw [h1, h2]
end

/-- **C8, amended**: a second `collection(t)` call with unchanged ports and no
intervening transition is *not* harmless: it re-fires exactly the same trace
of output invocations and coupling propagations as the first call (so every
propagated message is appended to its target port a second time), and at an
atomic leaf that is due it appends the model's output messages to the output
ports again.  Re-collection duplicates messages; avoiding it is the caller's
responsibility. -/
theorem collection_reruns_propagations {S : Type} (ex : Executor S) (s : Simulator S)
    (t : Time) :
    ((Executor.collectE (Executor.collectE ex t).1 t).2 = (Executor.collectE ex t).2) ∧
    (s.timeNext ≤ (t : ETime) →
      Executor.outPortsOf (Executor.collectE (Executor.collectE (S := S) (.sim s) t).1 t).1 =
        List.zipWith (fun p q => p ++ q)
          (List.zipWith (fun p q => p ++ q) s.model.outPorts (s.model.outFn s.model.state))
          (s.model.outFn s.model.state)) := by
  refine ⟨collect_twice_E ex t, ?_⟩
  intro h
  simp [Executor.collectE, Simulator.collection, Atomic.applyOutput, h, Executor.outPortsOf]

/-- Witness for `collection_reruns_propagations`: the leaf duplication at a
concrete due simulator. -/
theorem collection_reruns_propagations_witness :
    Executor.outPortsOf
        (Executor.collectE (Executor.collectE (S := Unit) (.sim simDue) 0).1 0).1 =
      [[7, 7]] :=
  ((collection_reruns_propagations (.sim simDue) simDue 0).2 (le_refl _)).trans
    (by norm_num [simDue, atomU])

/-! ## C7: the schedule invariant timeLast ≤ timeNext -/

mutual
/-- Every atomic model in the tree has a non-negative `timeAdvance` on every
state. -/
def taOK {S : Type} : Executor S → Prop
  | .sim s => ∀ st, (0 : ETime) ≤ s.model.ta st
  | .coord _ cs => taOKL cs

def taOKL {S : Type} : List (Executor S) → Prop
  | [] => True
  | ch :: rest => taOK ch ∧ taOKL rest
end

mutual
/-- The schedule invariant `timeLast ≤ timeNext` holds at every executor of
the tree. -/
def invAll {S : Type} : Executor S → Prop
  | .sim s => (s.timeLast : ETime) ≤ s.timeNext
  | .coord c cs => ((c.timeLast : ETime) ≤ c.timeNext) ∧ invAllL cs

def invAllL {S : Type} : List (Executor S) → Prop
  | [] => True
  | ch :: rest => invAll ch ∧ invAllL rest
end

mutual
/-- `t` is at most the `timeNext` of every executor of the tree. -/
def allTN {S : Type} (t : Time) : Executor S → Prop
  | .sim s => (t : ETime) ≤ s.timeNext
  | .coord c cs => ((t : ETime) ≤ c.timeNext) ∧ allTNL t cs

def allTNL {S : Type} (t : Time) : List (Executor S) → Prop
  | [] => True
  | ch :: rest => allTN t ch ∧ allTNL t rest
end

mutual
/-- Every atomic model in the model tree has a non-negative `timeAdvance`. -/
def taOKM {S : Type} : DevsModel S → Prop
  | .atomic a => ∀ st, (0 : ETime) ≤ a.ta st
  | .coupled _ _ _ _ _ children => taOKML children

def taOKML {S : Type} : List (DevsModel S) → Prop
  | [] => True
  | m :: rest => taOKM m ∧ taOKML rest
end

theorem le_foldl_min {α : Type} [LinearOrder α] (l : List α) (i a : α) (hi : a ≤ i)
    (h : ∀ x ∈ l, a ≤ x) : a ≤ l.foldl min i := by
  induction l generalizing i with
  | nil => exact hi
  | cons x xs ih =>
      refine ih (min i x) (le_min hi (h x (List.mem_cons_self x xs))) ?_
      intro y hy
      exact h y (List.mem_cons_of_mem x hy)

theorem taOK_addToInPort {S : Type} (ex : Executor S) (p : ℕ) (m : List Msg) :
    taOK (ex.addToInPort p m) ↔ taOK ex := by
  cases ex <;> simp [Executor.addToInPort, taOK]

theorem invAll_addToInPort {S : Type} (ex : Executor S) (p : ℕ) (m : List Msg) :
    invAll (ex.addToInPort p m) ↔ invAll ex := by
  cases ex <;> simp [Executor.addToInPort, invAll]

theorem taOKL_updNth {S : Type} (cs : List (Executor S)) (i : ℕ)
    (f : Executor S → Executor S) (hf : ∀ ch, taOK (f ch) ↔ taOK ch) :
    taOKL (updNth cs i f) ↔ taOKL cs := by
  induction cs generalizing i with
  | nil => exact Iff.rfl
  | cons ch rest ih =>
      cases i with
      | zero => simp [updNth, taOKL, hf]
      | succ k => simp [updNth, taOKL, ih]

theorem invAllL_updNth {S : Type} (cs : List (Executor S)) (i : ℕ)
    (f : Executor S → Executor S) (hf : ∀ ch, invAll (f ch) ↔ invAll ch) :
    invAllL (updNth cs i f) ↔ invAllL cs := by
  induction cs generalizing i with
  | nil => exact Iff.rfl
  | cons ch rest ih =>
      cases i with
      | zero => simp [updNth, invAllL, hf]
      | succ k => simp [updNth, invAllL, ih]

theorem taOKL_applyEICs {S : Type} (inP : List (List Msg)) (ls : List EICLink)
    (cs : List (Executor S)) : taOKL (applyEICs inP ls cs) ↔ taOKL cs := by
  induction ls generalizing cs with
  | nil => exact Iff.rfl
  | cons l ls ih =>
      rw [applyEICs, ih, taOKL_updNth]
      intro ch
      exact taOK_addToInPort ch _ _

theorem invAllL_applyEICs {S : Type} (inP : List (List Msg)) (ls : List EICLink)
    (cs : List (Executor S)) : invAllL (applyEICs inP ls cs) ↔ invAllL cs := by
  induction ls generalizing cs with
  | nil => exact Iff.rfl
  | cons l ls ih =>
      rw [applyEICs, ih, invAllL_updNth]
      intro ch
      exact invAll_addToInPort ch _ _

theorem invAllL_applyICs {S : Type} (ls : List ICLink) (cs : List (Executor S)) :
    invAllL (applyICs ls cs) ↔ invAllL cs := by
  induction ls generalizing cs with
  | nil => exact Iff.rfl
  | cons l ls ih =>
      rw [applyICs, ih, invAllL_updNth]
      intro ch
      exact invAll_addToInPort ch _ _

mutual
theorem trans_inv_E {S : Type} (ex : Executor S) (t : Time) (hta : taOK ex)
    (hinv : invAll ex) :
    invAll (Executor.transitionE ex t).1 ∧
      (t : ETime) ≤ (Executor.transitionE ex t).1.timeNextOf := by
  cases ex with
  | sim s =>
      simp only [taOK] at hta
      simp only [invAll] at hinv
      have key : (((Simulator.transition s t).1.timeLast : ETime) ≤
            (Simulator.transition s t).1.timeNext) ∧
          (t : ETime) ≤ (Simulator.transition s t).1.timeNext := by
        by_cases h : s.model.inEmpty = true ∧ (t : ETime) < s.timeNext
        · constructor
          · simpa [Simulator.transition, h] using hinv
          · simp only [Simulator.transition]
            rw [if_pos h]
            exact le_of_lt h.2
        · constructor
          · simp only [Simulator.transition]
            rw [if_neg h]
            exact le_add_of_nonneg_right (hta _)
          · simp only [Simulator.transition]
            rw [if_neg h]
            exact le_add_of_nonneg_right (hta _)
      constructor
      · simp only [Executor.transitionE, invAll]
        exact key.1
      · simp only [Executor.transitionE, Executor.timeNextOf]
        exact key.2
  | coord c cs =>
      simp only [taOK] at hta
      simp only [invAll] at hinv
      have hta0 : taOKL (applyEICs c.inPorts c.eic cs) :=
        (taOKL_applyEICs c.inPorts c.eic cs).mpr hta
      have hinv0 : invAllL (applyEICs c.inPorts c.eic cs) :=
        (invAllL_applyEICs c.inPorts c.eic cs).mpr hinv.2
      have hrec := trans_inv_L (applyEICs c.inPorts c.eic cs) t hta0 hinv0
      have hb : (t : ETime) ≤
          ((Executor.transitionL (applyEICs c.inPorts c.eic cs) t).map Prod.fst).foldl
            (fun acc ch => min acc ch.timeNextOf) ⊤ := by
        rw [foldl_min_timeNext_eq]
        refine le_foldl_min _ _ _ le_top ?_
        intro x hx
        rcases List.mem_map.mp hx with ⟨ch, hch, rfl⟩
        exact hrec.2 ch hch
      rw [transitionE_coord_eq c cs t]
      constructor
      · simp only [invAll]
        exact ⟨hb, hrec.1⟩
      · simp only [timeNextOf_coord]
        exact hb
termination_by nodesE ex
decreasing_by
  all_goals subst_vars
  all_goals simp [nodesE, nodesL, nodesL_applyEICs]

theorem trans_inv_L {S : Type} (cs : List (Executor S)) (t : Time) (hta : taOKL cs)
    (hinv : invAllL cs) :
    invAllL ((Executor.transitionL cs t).map Prod.fst) ∧
      ∀ ch ∈ (Executor.transitionL cs t).map Prod.fst,
        (t : ETime) ≤ ch.timeNextOf := by
  cases cs with
  | nil => simp [Executor.transitionL, invAllL]
  | cons ch rest =>
      simp only [taOKL] at hta
      simp only [invAllL] at hinv
      have h1 := trans_inv_E ch t hta.1 hinv.1
      have h2 := trans_inv_L rest t hta.2 hinv.2
      simp only [Executor.transitionL, List.map_cons, invAllL]
      refine ⟨⟨h1.1, h2.1⟩, ?_⟩
      intro x hx
      rcases List.mem_cons.mp hx with h | h
      · rw [h]
        exact h1.2
      · exact h2.2 x h
termination_by nodesL cs
decreasing_by
  all_goals subst_vars
  all_goals simp [nodesE, nodesL]
  all_goals omega
end

mutual
theorem collect_inv_E {S : Type} (ex : Executor S) (t : Time) (hinv : invAll ex) :
    invAll (Executor.collectE ex t).1 := by
  cases ex with
  | sim s =>
      simp only [invAll] at hinv
      by_cases h : s.timeNext ≤ (t : ETime)
      · simpa [Executor.collectE, Simulator.collection, h, invAll] using hinv
      · simpa [Executor.collectE, Simulator.collection, h, invAll] using hinv
  | coord c cs =>
      simp only [invAll] at hinv
      by_cases h : c.timeNext ≤ (t : ETime)
      · rw [collectE_coord_pos c cs t h]
        simp only [invAll]
        refine ⟨hinv.1, ?_⟩
        rw [invAllL_applyICs]
        exact collect_inv_L cs t hinv.2
      · rw [collectE_coord_neg c cs t h]
        simp only [invAll]
        exact hinv

theorem collect_inv_L {S : Type} (cs : List (Executor S)) (t : Time)
    (hinv : invAllL cs) :
    invAllL ((Executor.collectL cs t).map Prod.fst) := by
  cases cs with
  | nil => simp [Executor.collectL, invAllL]
  | cons ch rest =>
      simp only [invAllL] at hinv
      simp only [Executor.collectL, List.map_cons, invAllL]
      exact ⟨collect_inv_E ch t hinv.1, collect_inv_L rest t hinv.2⟩
end

mutual
theorem clear_inv_E {S : Type} (ex : Executor S) (hinv : invAll ex) :
    invAll (Executor.clearE ex) := by
  cases ex with
  | sim s =>
      simpa [Executor.clearE, Simulator.clear, invAll] using hinv
  | coord c cs =>
      simp only [invAll] at hinv
      simp only [Executor.clearE, invAll]
      exact ⟨hinv.1, clear_inv_L cs hinv.2⟩

theorem clear_inv_L {S : Type} (cs : List (Executor S)) (hinv : invAllL cs) :
    invAllL (Executor.clearL cs) := by
  cases cs with
  | nil => simp [Executor.clearL, invAllL]
  | cons ch rest =>
      simp only [invAllL] at hinv
      simp only [Executor.clearL, invAllL]
      exact ⟨clear_inv_E ch hinv.1, clear_inv_L rest hinv.2⟩
end

mutual
theorem start_inv_E {S : Type} (ex : Executor S) (t : Time) (h : allTN t ex) :
    invAll (Executor.startE ex t) := by
  cases ex with
  | sim s =>
      simpa [Executor.startE, Simulator.start, invAll, allTN] using h
  | coord c cs =>
      simp only [allTN] at h
      simp only [Executor.startE, invAll]
      exact ⟨h.1, start_inv_L cs t h.2⟩

theorem start_inv_L {S : Type} (cs : List (Executor S)) (t : Time) (h : allTNL t cs) :
    invAllL (Executor.startL cs t) := by
  cases cs with
  | nil => simp [Executor.startL, invAllL]
  | cons ch rest =>
      simp only [allTNL] at h
      simp only [Executor.startL, invAllL]
      exact ⟨start_inv_E ch t h.1, start_inv_L rest t h.2⟩
end

mutual
theorem stop_inv_E {S : Type} (ex : Executor S) (t : Time) (h : allTN t ex) :
    invAll (Executor.stopE ex t) := by
  cases ex with
  | sim s =>
      simpa [Executor.stopE, Simulator.stop, invAll, allTN] using h
  | coord c cs =>
      simp only [allTN] at h
      simp only [Executor.stopE, invAll]
      exact ⟨h.1, stop_inv_L cs t h.2⟩

theorem stop_inv_L {S : Type} (cs : List (Executor S)) (t : Time) (h : allTNL t cs) :
    invAllL (Executor.stopL cs t) := by
  cases cs with
  | nil => simp [Executor.stopL, invAllL]
  | cons ch rest =>
      simp only [allTNL] at h
      simp only [Executor.stopL, invAllL]
      exact ⟨stop_inv_E ch t h.1, stop_inv_L rest t h.2⟩
end

mutual
theorem build_inv_M {S : Type} (m : DevsModel S) (t : Time) (h : taOKM m) :
    invAll (buildExecutor m t) ∧ (t : ETime) ≤ (buildExecutor m t).timeNextOf := by
  cases m with
  | atomic a =>
      simp only [taOKM] at h
      constructor
      · simp only [buildExecutor, Simulator.mkSim, invAll]
        exact le_add_of_nonneg_right (h _)
      · simp only [buildExecutor, Simulator.mkSim, Executor.timeNextOf]
        exact le_add_of_nonneg_right (h _)
  | coupled inP outP eic ic eoc children =>
      simp only [taOKM] at h
      have hrec := build_inv_L children t h
      have hb : (t : ETime) ≤
          (buildL children t).foldl (fun acc ch => min acc ch.timeNextOf) ⊤ := by
        rw [foldl_min_timeNext_eq]
        refine le_foldl_min _ _ _ le_top ?_
        intro x hx
        rcases List.mem_map.mp hx with ⟨ch, hch, rfl⟩
        exact hrec.2 ch hch
      constructor
      · simp only [buildExecutor, invAll]
        exact ⟨hb, hrec.1⟩
      · simp only [buildExecutor, timeNextOf_coord]
        exact hb

theorem build_inv_L {S : Type} (ms : List (DevsModel S)) (t : Time) (h : taOKML ms) :
    invAllL (buildL ms t) ∧ ∀ ch ∈ buildL ms t, (t : ETime) ≤ ch.timeNextOf := by
  cases ms with
  | nil => simp [buildL, invAllL]
  | cons m rest =>
      simp only [taOKML] at h
      have h1 := build_inv_M m t h.1
      have h2 := build_inv_L rest t h.2
      simp only [buildL, invAllL]
      refine ⟨⟨h1.1, h2.1⟩, ?_⟩
      intro x hx
      rcases List.mem_cons.mp hx with hx | hx
      · rw [hx]
        exact h1.2
      · exact h2.2 x hx
end

theorem inject_inv {S : Type} (c : CoupledSt) (cs : List (Executor S)) (e : Time)
    (p : ℕ) (v : Msg) (hta : taOK (.coord c cs)) (hinv : invAll (.coord c cs)) :
    invAll (Executor.inject (.coord c cs) e p v).1 := by
  simp only [taOK] at hta
  simp only [invAll] at hinv
  simp only [Executor.inject]
  by_cases h : c.timeNext < ((c.timeLast + e : ℚ) : ETime)
  · rw [if_pos h]
    simp only [invAll]
    exact hinv
  · rw [if_neg h]
    refine clear_inv_E _ ?_
    refine (trans_inv_E _ _ ?_ ?_).1
    · simp only [taOK]
      exact hta
    · simp only [invAll]
      exact ⟨not_lt.mp h, hinv.2⟩

/-- **C7, counterexample**: the invariant `timeLast ≤ timeNext` does *not*
hold after every public operation: a simulator built at time `0` over a model
with `timeAdvance() = 1` has `timeNext = 1`, and `start(5)` sets
`timeLast = 5` without touching `timeNext`, breaking the invariant. -/
theorem schedule_invariant_counterexample :
    ¬ invAll (Executor.startE (S := Unit) (.sim (Simulator.mkSim atomU 0)) 5) := by
  simp only [Executor.startE, Simulator.start, Simulator.mkSim, atomU, invAll]
  intro h
  have h5 : ((5 : ℚ) : ETime) ≤ ((1 : ℚ) : ETime) := by
    convert h using 2
    norm_num
  exact absurd (WithTop.coe_le_coe.mp h5) (by norm_num)

/-- **C7, amended**: the schedule invariant `timeLast ≤ timeNext` holds at
every executor of the tree after construction (for models whose
`timeAdvance` is always non-negative), and it is preserved by `collection`,
`transition` (again given non-negative `timeAdvance`), `clear` and `inject`;
`start(time)`/`stop(time)` re-establish it provided `time` does not exceed
any executor's current `timeNext` (without that proviso they break it, as
the counterexample shows, since they move `timeLast` without touching
`timeNext`). -/
theorem schedule_invariant_preserved {S : Type} :
    (∀ (m : DevsModel S) (t : Time), taOKM m → invAll (buildExecutor m t)) ∧
    (∀ (ex : Executor S) (t : Time), taOK ex → invAll ex →
      invAll (Executor.transitionE ex t).1) ∧
    (∀ (ex : Executor S) (t : Time), invAll ex → invAll (Executor.collectE ex t).1) ∧
    (∀ ex : Executor S, invAll ex → invAll (Executor.clearE ex)) ∧
    (∀ (ex : Executor S) (t : Time), allTN t ex → invAll (Executor.startE ex t)) ∧
    (∀ (ex : Executor S) (t : Time), allTN t ex → invAll (Executor.stopE ex t)) ∧
    (∀ (c : CoupledSt) (cs : List (Executor S)) (e : Time) (p : ℕ) (v : Msg),
      taOK (.coord c cs) → invAll (.coord c cs) →
      invAll (Executor.inject (.coord c cs) e p v).1) :=
  ⟨fun m t h => (build_inv_M m t h).1,
   fun ex t hta hinv => (trans_inv_E ex t hta hinv).1,
   fun ex t hinv => collect_inv_E ex t hinv,
   fun ex hinv => clear_inv_E ex hinv,
   fun ex t h => start_inv_E ex t h,
   fun ex t h => stop_inv_E ex t h,
   fun c cs e p v hta hinv => inject_inv c cs e p v hta hinv⟩

/-- Witness for `schedule_invariant_preserved`: the transition conjunct at a
concrete tree. -/
theorem schedule_invariant_preserved_witness :
    invAll (Executor.transitionE (S := Unit) (.sim simDue) 3).1 :=
  (schedule_invariant_preserved (S := Unit)).2.1 (.sim simDue) 3
    (by simp only [taOK, simDue, atomU]
        intro st
        exact_mod_cast (by norm_num : (0 : ℚ) ≤ 1))
    (by simp only [invAll, simDue]
        exact le_refl _)
